import Mathlib

/-!
# Verification of `scripts/add-new-bcd.ts` (mdn-bcd-collector)

This file gives a shallow embedding of the core of `scripts/add-new-bcd.ts`:

* the tree-merge primitive `recursiveAdd` (value-level semantics on JSON-like
  trees, plus an explicit-heap semantics `recursiveAddH` for the in-place /
  aliasing facts),
* the path resolver `getFilePath`,
* the support-traversal `traverseFeatures`,

and proves properties of these embeddings.

Modelling conventions:

* JS objects are ordered string-keyed maps; we model them as association
  lists (`List (String × _)`), with JS property assignment updating an
  existing key in place or appending a fresh key at the end (insertion
  order), exactly as JS objects behave.
* Identifier-path segments are non-empty ASCII identifiers (the dataset's
  dotted identifiers); where a theorem depends on a segment's first
  character it carries that hypothesis, since the JS code would raise a
  TypeError on an empty segment and `String.prototype.toLowerCase` agrees
  with `Char.toLower` only on ASCII.
* Node's `path.join` on slash-free segments is `String.intercalate "/"`.
-/

namespace AddNewBcd

/-- First-match lookup in an association list (JS property read). -/
def lookupA {α β : Type} [DecidableEq α] : List (α × β) → α → Option β
  | [], _ => none
  | (k, v) :: rest, a => if k = a then some v else lookupA rest a

/-- JS property assignment on an object's entry list: overwrite the first
entry with the given key in place, or append a new entry at the end. -/
def setA {α β : Type} [DecidableEq α] : List (α × β) → α → β → List (α × β)
  | [], a, b => [(a, b)]
  | (k, v) :: rest, a, b => if k = a then (k, b) :: rest else (k, v) :: setA rest a b

/-- A JSON-like object tree: every node is an ordered string-keyed map whose
values are again such trees.  This is the value-level shape of the
`Identifier` data that `recursiveAdd` manipulates. -/
inductive Tree where
  | mk : List (String × Tree) → Tree

/-- The entry list of a tree node. -/
def Tree.fields : Tree → List (String × Tree)
  | .mk fs => fs

/-- Property read on a tree node. -/
def Tree.get (t : Tree) (k : String) : Option Tree :=
  lookupA t.fields k

/-- Property assignment on a tree node. -/
def Tree.set (t : Tree) (k : String) (v : Tree) : Tree :=
  .mk (setA t.fields k v)

/-- Value-level semantics of `recursiveAdd` from `scripts/add-new-bcd.ts`:

```ts
export const recursiveAdd = (ident, i, data, obj) => {
  const part = ident[i];
  data[part] =
    i + 1 < ident.length
      ? recursiveAdd(ident, i + 1, part in data ? data[part] : {}, obj)
      : Object.assign({}, obj);
  return data;
};
```

At the value level `Object.assign({}, obj)` is just the value `obj` (the
heap-level shallow-copy semantics is modelled separately by
`recursiveAddH`).  The function is only ever called with `i <
ident.length`; for an out-of-range index JS would read `ident[i]` as
`undefined`, which we keep total with a default segment. -/
def recursiveAdd (ident : List String) (i : Nat) (data : Tree) (obj : Tree) : Tree :=
  let part := ident.getD i ""
  if _h : i + 1 < ident.length then
    data.set part (recursiveAdd ident (i + 1) ((data.get part).getD (.mk [])) obj)
  else
    data.set part obj
termination_by ident.length - i

/-- Structural form of the merge: recursion on the remaining path segments
(`recursiveAdd ident i … = addPath (ident.drop i) …` for in-range `i`). -/
def addPath : List String → Tree → Tree → Tree
  | [], t, _ => t
  | [k], t, obj => t.set k obj
  | k :: k2 :: rest, t, obj =>
      t.set k (addPath (k2 :: rest) ((t.get k).getD (.mk [])) obj)

/-- Pure path lookup in a tree: `none` when some segment is missing. -/
def lookPath : Tree → List String → Option Tree
  | t, [] => some t
  | t, k :: ks =>
      match t.get k with
      | some u => lookPath u ks
      | none => none

/-- The child under key `k` at the node reached by `path` (`none` when the
node or the key is missing). -/
def getAt (t : Tree) (path : List String) (k : String) : Option Tree :=
  (lookPath t path).bind (fun u => u.get k)

/-- Descend along a path, substituting `{}` for each missing child — the
sequence of nodes the merge recursion descends into. -/
def descend : Tree → List String → Tree
  | t, [] => t
  | t, k :: ks => descend ((t.get k).getD (.mk [])) ks

/-- Extensional tree equivalence: at every node the same keys are present,
with equivalent subtrees — tree equality up to key insertion order. -/
inductive Tree.Equiv : Tree → Tree → Prop where
  | intro (t₁ t₂ : Tree)
      (hdom : ∀ k, (t₁.get k).isSome = (t₂.get k).isSome)
      (hval : ∀ k a b, t₁.get k = some a → t₂.get k = some b → Tree.Equiv a b) :
      Tree.Equiv t₁ t₂

/-! ## The path resolver `getFilePath` -/

/-- `const startsWithLowerCase = (s) => s[0] === s[0].toLowerCase()`.
Defined on the segment's character list; identifier segments are non-empty
ASCII, where `Char.toLower` agrees with JS `toLowerCase` (on the empty
string, which never names a segment, JS would raise a TypeError). -/
def startsWithLowerCase (s : String) : Bool :=
  match s.data with
  | [] => true
  | c :: _ => c == c.toLower

/-- `const startsWithUpperCase = (s) => s[0] === s[0].toUpperCase()`. -/
def startsWithUpperCase (s : String) : Bool :=
  match s.data with
  | [] => true
  | c :: _ => c == c.toUpper

/-- Node's `path.join` on slash-free segments. -/
def pathJoin (parts : List String) : String := String.intercalate "/" parts

/-- `parts[parts.length - 1] += ".json"; return path.join(...parts)` —
appending `.json` to the last segment and joining is joining and then
appending `.json`. -/
def finishPath (parts : List String) : String := pathJoin parts ++ ".json"

/-- The domain of identifier-path segments: non-empty ASCII strings (the
dataset's dotted identifiers are dot-separated ASCII identifiers).  On this
domain the embedded case tests agree with the JS originals. -/
def asciiSeg (s : String) : Bool :=
  s != "" && s.data.all (fun c => decide (c.toNat < 128))

/-- `getFilePath` from `scripts/add-new-bcd.ts`, parametrized by the
recognized-namespace list `jsNamespaces` (imported by the script from
`test-builder/javascript.js`).  Throwing is modelled by `Except`. -/
def getFilePath (jsNamespaces : List String) (ident : List String) : Except String String :=
  let parts := ident
  if 2 ≤ parts.length ∧ parts.getD 0 "" = "api" then
    if startsWithLowerCase (parts.getD 1 "") then
      .ok (finishPath [parts.getD 0 "", "_globals", parts.getD 1 ""])
    else
      .ok (finishPath (parts.take 2))
  else if 3 ≤ parts.length ∧ parts.getD 0 "" ∈ ["css", "html", "svg", "mathml"] then
    .ok (finishPath (parts.take 3))
  else if 3 ≤ parts.length ∧ parts.getD 0 "" = "javascript" ∧ parts.getD 1 "" = "builtins" then
    if startsWithLowerCase (parts.getD 2 "") then
      .ok "javascript/builtins/globals.json"
    else if 4 ≤ parts.length ∧ parts.getD 2 "" ≠ parts.getD 3 ""
        ∧ parts.getD 2 "" ∈ jsNamespaces ∧ startsWithUpperCase (parts.getD 3 "") then
      .ok (finishPath (parts.take 4))
    else
      .ok (finishPath (parts.take 3))
  else if 2 ≤ parts.length ∧ parts.getD 0 "" = "webassembly" then
    .ok (finishPath (parts.take 2))
  else
    .error ("Cannot determine file path from BCD path: " ++ String.intercalate "." ident)

/-! ## The support traversal `traverseFeatures` -/

/-- A JSON scalar as it appears in `version_added` / `version_removed`. -/
inductive JVal where
  | null : JVal
  | bool : Bool → JVal
  | str : String → JVal

/-- JS truthiness of such a scalar. -/
def JVal.truthy : JVal → Bool
  | .null => false
  | .bool b => b
  | .str s => s != ""

/-- Truthiness of an optional field (an absent field reads as `undefined`,
which is falsy). -/
def truthyO : Option JVal → Bool
  | none => false
  | some v => v.truthy

/-- One support statement (`version_added` / `version_removed` fields). -/
structure SupportStatement where
  version_added : Option JVal
  version_removed : Option JVal

/-- One environment's support data: a single statement or an array. -/
inductive StatementsVal where
  | single : SupportStatement → StatementsVal
  | arr : List SupportStatement → StatementsVal

/-- `Array.isArray(statements) ? statements : [statements]`. -/
def StatementsVal.toList : StatementsVal → List SupportStatement
  | .single s => [s]
  | .arr l => l

/-- `(…).some((s) => s.version_added && !s.version_removed)`. -/
def envSupported (sts : StatementsVal) : Bool :=
  sts.toList.any (fun s => truthyO s.version_added && !truthyO s.version_removed)

/-- The `for (const statements of Object.values(support)) { … break; }`
loop of `traverseFeatures`: the file write fires iff some environment has a
statement that is added and not removed. -/
def writeTriggered : List (String × StatementsVal) → Bool
  | [] => false
  | (_, sts) :: rest => if envSupported sts then true else writeTriggered rest

/-- The `__compat` payload: its (optional) `support` mapping from
environment name to statements.  The `status` field is opaque to the
traversal and omitted. -/
structure CompatStatement where
  support : Option (List (String × StatementsVal))

/-- A feature tree (the `Identifier` shape of the source): an optional
`__compat` annotation plus ordered object children.  The child list may
additionally contain an entry literally keyed `"__compat"`, which the
traversal skips by its key test, as in the source. -/
inductive FTree where
  | mk : Option CompatStatement → List (String × FTree) → FTree

/-- The node's `__compat` annotation. -/
def FTree.compat : FTree → Option CompatStatement
  | .mk c _ => c

/-- The node's children. -/
def FTree.children : FTree → List (String × FTree)
  | .mk _ cs => cs

/-- `obj[i]?.__compat?.support` for a child node. -/
def FTree.supportOf (t : FTree) : Option (List (String × StatementsVal)) :=
  match t.compat with
  | some c => c.support
  | none => none

mutual

/-- `traverseFeatures` from the source, with its two effects reified: the
first component collects every identifier the walk visits (in visit
order), the second collects the identifiers passed to `writeFile`. -/
def traverseFeatures : FTree → List String → List (List String) × List (List String)
  | .mk _ cs, identifier => traverseChildren cs identifier

/-- The `for (const i in obj)` loop body of `traverseFeatures`: children
are objects (always truthy, of type `object`), so the loop's guard reduces
to the key test `i !== "__compat"`. -/
def traverseChildren : List (String × FTree) → List String → List (List String) × List (List String)
  | [], _ => ([], [])
  | (i, c) :: rest, identifier =>
      if i = "__compat" then traverseChildren rest identifier
      else
        let thisIdent := identifier ++ [i]
        let w := match c.supportOf with
          | some support => writeTriggered support
          | none => false
        let rc := traverseFeatures c thisIdent
        let rr := traverseChildren rest identifier
        (thisIdent :: (rc.1 ++ rr.1), if w then thisIdent :: (rc.2 ++ rr.2) else rc.2 ++ rr.2)

end

mutual

/-- All descendant key paths of a feature tree except entries keyed
`"__compat"`, in depth-first preorder — the formal reading of "every
descendant key except the literal `__compat` key". -/
def keyPaths : FTree → List (List String)
  | .mk _ cs => keyPathsChildren cs

/-- `keyPaths` over a child list. -/
def keyPathsChildren : List (String × FTree) → List (List String)
  | [] => []
  | (k, c) :: rest =>
      if k = "__compat" then keyPathsChildren rest
      else ([k] :: (keyPaths c).map (fun p => k :: p)) ++ keyPathsChildren rest

end

/-! ## The heap-level semantics of `recursiveAdd`

JS objects live in a heap; `recursiveAdd` mutates the tree it is given and
stores a *shallow copy* of the leaf (`Object.assign({}, obj)`).  To state
the in-place and non-aliasing facts we model the heap explicitly: object
references are addresses, an object is its ordered field list, and field
values are again references. -/

/-- An object heap: addresses map to objects; `next` is the next fresh
address. -/
structure Heap where
  objs : List (Nat × List (String × Nat))
  next : Nat

/-- Read the object at an address. -/
def Heap.objGet (h : Heap) (a : Nat) : Option (List (String × Nat)) :=
  lookupA h.objs a

/-- JS field assignment `a[k] = v` (a no-op on an unallocated address,
which the program never performs). -/
def Heap.setField (h : Heap) (a : Nat) (k : String) (v : Nat) : Heap :=
  match lookupA h.objs a with
  | some fs => { h with objs := setA h.objs a (setA fs k v) }
  | none => h

/-- Allocate a fresh object with the given field list. -/
def Heap.alloc (h : Heap) (fs : List (String × Nat)) : Nat × Heap :=
  (h.next, { objs := (h.next, fs) :: h.objs, next := h.next + 1 })

/-- Heap-level semantics of `recursiveAdd`: `data` and `obj` are object
references; `part in data ? data[part] : {}` either follows the existing
reference or allocates `{}`, and `Object.assign({}, obj)` allocates a
fresh object carrying `obj`'s field list (a shallow copy). -/
def recursiveAddH (ident : List String) (i : Nat) (data : Nat) (obj : Nat) (h : Heap) : Nat × Heap :=
  let part := ident.getD i ""
  if _h : i + 1 < ident.length then
    match (h.objGet data).bind (fun fs => lookupA fs part) with
    | some child =>
        let r := recursiveAddH ident (i + 1) child obj h
        (data, r.2.setField data part r.1)
    | none =>
        let al := h.alloc []
        let r := recursiveAddH ident (i + 1) al.1 obj al.2
        (data, r.2.setField data part r.1)
  else
    let al := h.alloc ((h.objGet obj).getD [])
    (data, al.2.setField data part al.1)
termination_by ident.length - i

/-- `recursiveAddH` as structural recursion on the remaining segments. -/
def addPathH : List String → Nat → Nat → Heap → Nat × Heap
  | [], data, _, h => (data, h)
  | [k], data, obj, h =>
      let al := h.alloc ((h.objGet obj).getD [])
      (data, al.2.setField data k al.1)
  | k :: k2 :: rest, data, obj, h =>
      match (h.objGet data).bind (fun fs => lookupA fs k) with
      | some child =>
          let r := addPathH (k2 :: rest) child obj h
          (data, r.2.setField data k r.1)
      | none =>
          let al := h.alloc []
          let r := addPathH (k2 :: rest) al.1 obj al.2
          (data, r.2.setField data k r.1)

/-- The chain of already-allocated objects the merge walks through before
reaching the final segment's slot. -/
def chainP : List String → Nat → Heap → List Nat
  | k :: k2 :: rest, a, h =>
      match (h.objGet a).bind (fun fs => lookupA fs k) with
      | some c => a :: chainP (k2 :: rest) c h
      | none => [a]
  | _, a, _ => [a]

/-- Follow a key path through the heap from a root reference. -/
def lookPathH (h : Heap) : Nat → List String → Option Nat
  | a, [] => some a
  | a, k :: ks =>
      match (h.objGet a).bind (fun fs => lookupA fs k) with
      | some b => lookPathH h b ks
      | none => none

/-! ## Association-list and tree lemmas -/

theorem lookupA_setA_self {α β : Type} [DecidableEq α] (l : List (α × β)) (k : α) (v : β) :
    lookupA (setA l k v) k = some v := by
  induction l with
  | nil => simp [lookupA, setA]
  | cons kv rest ih =>
      obtain ⟨k1, v1⟩ := kv
      by_cases h : k1 = k
      · subst h; simp [lookupA, setA]
      · simp [lookupA, setA, h, ih]

theorem lookupA_setA_ne {α β : Type} [DecidableEq α] (l : List (α × β)) (k k' : α) (v : β)
    (h : k' ≠ k) : lookupA (setA l k v) k' = lookupA l k' := by
  have hkk : ∀ a : α, a = k → ¬(a = k') := by
    intro a ha hc
    exact h (hc ▸ ha ▸ rfl)
  induction l with
  | nil =>
      simp only [setA, lookupA]
      rw [if_neg (hkk k rfl)]
  | cons kv rest ih =>
      obtain ⟨k1, v1⟩ := kv
      by_cases h1 : k1 = k
      · subst h1
        simp only [setA, if_pos rfl, lookupA]
        rw [if_neg (hkk k1 rfl), if_neg (hkk k1 rfl)]
      · simp only [setA, if_neg h1, lookupA, ih]

theorem setA_setA_self {α β : Type} [DecidableEq α] (l : List (α × β)) (k : α) (u v : β) :
    setA (setA l k u) k v = setA l k v := by
  induction l with
  | nil => simp [setA]
  | cons kv rest ih =>
      obtain ⟨k1, v1⟩ := kv
      by_cases h : k1 = k
      · subst h; simp [setA]
      · simp [setA, h, ih]

theorem Tree.get_set_self (t : Tree) (k : String) (v : Tree) :
    (t.set k v).get k = some v := by
  simp [Tree.get, Tree.set, Tree.fields, lookupA_setA_self]

theorem Tree.get_set_ne (t : Tree) (k k' : String) (v : Tree) (h : k' ≠ k) :
    (t.set k v).get k' = t.get k' := by
  simp [Tree.get, Tree.set, Tree.fields, lookupA_setA_ne _ _ _ _ h]

theorem Tree.set_set_self (t : Tree) (k : String) (u v : Tree) :
    (t.set k u).set k v = t.set k v := by
  simp [Tree.set, Tree.fields, setA_setA_self]

theorem Tree.set_ne_of_get_none (t : Tree) (k : String) (v : Tree) (h : t.get k = none) :
    t.set k v ≠ t := by
  intro he
  have : (t.set k v).get k = t.get k := by rw [he]
  rw [Tree.get_set_self, h] at this
  exact Option.noConfusion this

/-- Unfolding `addPath` at a non-empty path. -/
theorem addPath_cons (k : String) (p : List String) (t obj : Tree) :
    addPath (k :: p) t obj
      = t.set k (if p.isEmpty then obj else addPath p ((t.get k).getD (.mk [])) obj) := by
  cases p <;> rfl

/-- For an in-range index, the index-based recursion of `recursiveAdd` is
the structural recursion `addPath` on the remaining segments. -/
theorem recursiveAdd_eq_addPath (ident : List String) (i : Nat) (data obj : Tree)
    (h : i < ident.length) :
    recursiveAdd ident i data obj = addPath (ident.drop i) data obj := by
  rw [recursiveAdd]
  by_cases hlt : i + 1 < ident.length
  · rw [dif_pos hlt]
    rw [recursiveAdd_eq_addPath ident (i + 1) _ obj hlt]
    rw [List.drop_eq_getElem_cons h, addPath_cons]
    have hne : ¬(ident.drop (i + 1)).isEmpty := by
      simp [List.isEmpty_iff, List.drop_eq_nil_iff]
      omega
    rw [if_neg hne]
    congr 1 <;> simp [List.getD_eq_getElem?_getD, List.getElem?_eq_getElem h]
  · rw [dif_neg hlt]
    have hlen : i + 1 = ident.length := by omega
    have hdrop : ident.drop i = [ident.getD i ""] := by
      rw [List.drop_eq_getElem_cons h]
      have : ident.drop (i + 1) = [] := by
        rw [List.drop_eq_nil_iff]; omega
      rw [this]
      simp [List.getD_eq_getElem?_getD, List.getElem?_eq_getElem h]
    rw [hdrop]
    rfl
termination_by ident.length - i

/-! ## Extensional equivalence -/

theorem lookupA_sizeOf {fs : List (String × Tree)} {k : String} {a : Tree}
    (h : lookupA fs k = some a) : sizeOf a < sizeOf fs := by
  induction fs with
  | nil => simp [lookupA] at h
  | cons kv rest ih =>
      obtain ⟨k1, v1⟩ := kv
      simp only [lookupA] at h
      split at h
      · cases h
        simp only [List.cons.sizeOf_spec, Prod.mk.sizeOf_spec]
        omega
      · have := ih h
        simp only [List.cons.sizeOf_spec, Prod.mk.sizeOf_spec]
        omega

theorem Tree.get_sizeOf {t : Tree} {k : String} {a : Tree} (h : t.get k = some a) :
    sizeOf a < sizeOf t := by
  cases t with
  | mk fs =>
      have : sizeOf a < sizeOf fs := lookupA_sizeOf h
      simp only [Tree.mk.sizeOf_spec]
      omega

theorem Tree.Equiv.refl : ∀ t : Tree, Tree.Equiv t t := by
  have key : ∀ n, ∀ t : Tree, sizeOf t ≤ n → Tree.Equiv t t := by
    intro n
    induction n with
    | zero =>
        intro t h
        cases t with
        | mk fs => simp only [Tree.mk.sizeOf_spec] at h; omega
    | succ n ih =>
        intro t h
        refine ⟨t, t, fun _ => rfl, fun k a b ha hb => ?_⟩
        rw [ha] at hb
        cases hb
        have hs : sizeOf a < sizeOf t := Tree.get_sizeOf ha
        exact ih a (by omega)
  exact fun t => key (sizeOf t) t (Nat.le_refl _)

theorem Tree.Equiv.set_congr {u v : Tree} (t : Tree) (k : String) (h : Tree.Equiv u v) :
    Tree.Equiv (t.set k u) (t.set k v) := by
  refine ⟨_, _, ?_, ?_⟩
  · intro k'
    by_cases hk : k' = k
    · subst hk; simp [Tree.get_set_self]
    · simp [Tree.get_set_ne _ _ _ _ hk]
  · intro k' a b ha hb
    by_cases hk : k' = k
    · subst hk
      rw [Tree.get_set_self] at ha hb
      cases ha; cases hb
      exact h
    · rw [Tree.get_set_ne _ _ _ _ hk] at ha hb
      rw [ha] at hb
      cases hb
      exact Tree.Equiv.refl a

theorem Tree.set_comm_get (t : Tree) {k k' : String} (u v : Tree) (hk : k ≠ k') :
    ∀ k'', ((t.set k u).set k' v).get k'' = ((t.set k' v).set k u).get k'' := by
  have hk2 : k' ≠ k := fun h => hk h.symm
  intro k''
  by_cases h1 : k'' = k'
  · subst h1
    rw [Tree.get_set_self, Tree.get_set_ne (t.set k'' v) k k'' u hk2, Tree.get_set_self]
  · by_cases h2 : k'' = k
    · subst h2
      rw [Tree.get_set_ne (t.set k'' u) k' k'' v hk, Tree.get_set_self, Tree.get_set_self]
    · rw [Tree.get_set_ne (t.set k u) k' k'' v h1, Tree.get_set_ne t k k'' u h2,
        Tree.get_set_ne (t.set k' v) k k'' u h2, Tree.get_set_ne t k' k'' v h1]

theorem Tree.Equiv.set_comm (t : Tree) {k k' : String} (u v : Tree) (hk : k ≠ k') :
    Tree.Equiv ((t.set k u).set k' v) ((t.set k' v).set k u) := by
  refine ⟨_, _, fun k'' => by rw [Tree.set_comm_get t u v hk k''], fun k'' a b ha hb => ?_⟩
  rw [Tree.set_comm_get t u v hk k'', hb] at ha
  have hba : b = a := Option.some.inj ha
  subst hba
  exact Tree.Equiv.refl b

theorem addPath_cons_ne (k : String) {p : List String} (hp : p ≠ []) (t obj : Tree) :
    addPath (k :: p) t obj = t.set k (addPath p ((t.get k).getD (.mk [])) obj) := by
  cases p with
  | nil => exact absurd rfl hp
  | cons _ _ => rfl

/-- Merging at two paths neither of which is a prefix of the other commutes
up to extensional equivalence. -/
theorem addPath_comm_equiv : ∀ (p q : List String) (t a b : Tree),
    p.isPrefixOf q = false → q.isPrefixOf p = false →
    Tree.Equiv (addPath q (addPath p t a) b) (addPath p (addPath q t b) a) := by
  intro p
  induction p with
  | nil => intro q t a b hp _; simp [List.isPrefixOf] at hp
  | cons x p' ih =>
      intro q t a b hp hq
      cases q with
      | nil => simp [List.isPrefixOf] at hq
      | cons y q' =>
          simp only [List.isPrefixOf, Bool.and_eq_false_iff] at hp hq
          by_cases hxy : x = y
          · subst hxy
            have hp' : p'.isPrefixOf q' = false := by
              rcases hp with h | h
              · simp at h
              · exact h
            have hq' : q'.isPrefixOf p' = false := by
              rcases hq with h | h
              · simp at h
              · exact h
            have hp'ne : p' ≠ [] := by
              intro he
              subst he
              simp [List.isPrefixOf] at hp'
            have hq'ne : q' ≠ [] := by
              intro he
              subst he
              simp [List.isPrefixOf] at hq'
            rw [addPath_cons_ne x hp'ne t a]
            rw [addPath_cons_ne x hq'ne (t.set x (addPath p' ((t.get x).getD (.mk [])) a)) b]
            rw [Tree.get_set_self, Tree.set_set_self]
            rw [addPath_cons_ne x hq'ne t b]
            rw [addPath_cons_ne x hp'ne (t.set x (addPath q' ((t.get x).getD (.mk [])) b)) a]
            rw [Tree.get_set_self, Tree.set_set_self]
            simp only [Option.getD_some]
            exact Tree.Equiv.set_congr t x (ih q' ((t.get x).getD (.mk [])) a b hp' hq')
          · have hyx : y ≠ x := fun h => hxy h.symm
            obtain ⟨A, hA⟩ : ∃ A, ∀ s : Tree, s.get x = t.get x → addPath (x :: p') s a = s.set x A := by
              cases p' with
              | nil => exact ⟨a, fun s _ => rfl⟩
              | cons z zs =>
                  refine ⟨addPath (z :: zs) ((t.get x).getD (.mk [])) a, fun s hs => ?_⟩
                  rw [addPath_cons_ne x (by simp) s a, hs]
            obtain ⟨B, hB⟩ : ∃ B, ∀ s : Tree, s.get y = t.get y → addPath (y :: q') s b = s.set y B := by
              cases q' with
              | nil => exact ⟨b, fun s _ => rfl⟩
              | cons z zs =>
                  refine ⟨addPath (z :: zs) ((t.get y).getD (.mk [])) b, fun s hs => ?_⟩
                  rw [addPath_cons_ne y (by simp) s b, hs]
            rw [hA t rfl, hB (t.set x A) (Tree.get_set_ne t x y A hyx)]
            rw [hB t rfl, hA (t.set y B) (Tree.get_set_ne t y x B hxy)]
            exact Tree.Equiv.set_comm t A B hxy

/-! ## Further merge lemmas (prefix paths, frame) -/

theorem descend_addPath : ∀ (p : List String) (t a : Tree), p ≠ [] →
    descend (addPath p t a) p = a := by
  intro p
  induction p with
  | nil => intro t a hp; exact absurd rfl hp
  | cons k p' ih =>
      intro t a _
      cases p' with
      | nil => simp [addPath, descend, Tree.get_set_self]
      | cons k2 rest =>
          rw [addPath_cons_ne k (by simp) t a]
          simp only [descend, Tree.get_set_self, Option.getD_some]
          exact ih _ _ (by simp)

theorem lookPath_addPath_append : ∀ (p : List String) (r : List String) (t x : Tree), r ≠ [] →
    lookPath (addPath (p ++ r) t x) p = some (addPath r (descend t p) x) := by
  intro p
  induction p with
  | nil => intro r t x _; simp [lookPath, descend]
  | cons k p' ih =>
      intro r t x hr
      have hne : p' ++ r ≠ [] := by
        intro he
        rcases List.append_eq_nil.mp he with ⟨_, h2⟩
        exact hr h2
      rw [List.cons_append, addPath_cons_ne k hne t x]
      simp only [lookPath, Tree.get_set_self, descend]
      exact ih r ((t.get k).getD (Tree.mk [])) x hr

theorem getAt_mkNil (ps : List String) (k : String) : getAt (Tree.mk []) ps k = none := by
  cases ps <;> simp [getAt, lookPath, Tree.get, Tree.fields, lookupA]

theorem addPath_frame : ∀ (j : Nat) (p : List String) (t obj : Tree) (k : String),
    j < p.length → k ≠ p.getD j "" →
    getAt (addPath p t obj) (p.take j) k = getAt t (p.take j) k := by
  intro j
  induction j with
  | zero =>
      intro p t obj k hj hk
      cases p with
      | nil => simp at hj
      | cons p0 p' =>
          simp only [List.take_zero, getAt, lookPath, Option.some_bind]
          obtain ⟨A, hA⟩ : ∃ A, addPath (p0 :: p') t obj = t.set p0 A := by
            cases p' with
            | nil => exact ⟨obj, rfl⟩
            | cons z zs => exact ⟨_, rfl⟩
          rw [hA]
          exact Tree.get_set_ne t p0 k A (by simpa using hk)
  | succ j ih =>
      intro p t obj k hj hk
      cases p with
      | nil => simp at hj
      | cons p0 p' =>
          have hj' : j < p'.length := by simpa using hj
          have hk' : k ≠ p'.getD j "" := by simpa using hk
          have hp'ne : p' ≠ [] := by
            intro he
            subst he
            simp at hj'
          rw [addPath_cons_ne p0 hp'ne t obj, List.take_succ_cons]
          simp only [getAt, lookPath, Tree.get_set_self]
          cases hg : t.get p0 with
          | some u =>
              simp only [Option.getD_some]
              have := ih p' u obj k hj' hk'
              simpa [getAt] using this
          | none =>
              simp only [Option.getD_none]
              have := ih p' (Tree.mk []) obj k hj' hk'
              rw [getAt_mkNil] at this
              simpa [getAt] using this

/-- Heap level: `recursiveAddH` returns the very reference it was given. -/
theorem recursiveAddH_fst (ident : List String) (i : Nat) (data obj : Nat) (h : Heap) :
    (recursiveAddH ident i data obj h).1 = data := by
  rw [recursiveAddH]
  by_cases hlt : i + 1 < ident.length
  · rw [dif_pos hlt]
    cases (h.objGet data).bind (fun fs => lookupA fs (ident.getD i "")) <;> rfl
  · rw [dif_neg hlt]

/-! ## Claim theorems for the merge engine -/

/-- Claim C5, exactly as stated (the two merge orders yield the *same*
tree), is false: merging leaves at the disjoint singleton paths `["a"]`
and `["b"]` into the empty tree appends the keys in encounter order, so
one order yields key order `a, b` and the other `b, a`. -/
theorem claim_C5_counterexample :
    ¬ (recursiveAdd ["b"] 0 (recursiveAdd ["a"] 0 (Tree.mk []) (Tree.mk [])) (Tree.mk [])
        = recursiveAdd ["a"] 0 (recursiveAdd ["b"] 0 (Tree.mk []) (Tree.mk [])) (Tree.mk [])) := by
  intro h
  have h2 := congrArg (fun t => t.fields.map Prod.fst) h
  simp [recursiveAdd, Tree.set, setA, Tree.fields] at h2

/-- Claim C5 (amended): merging leaves at two non-prefix-related paths into
the same tree, in either order, yields *extensionally equal* trees — the
same keys are present at every node, with equivalent subtrees, i.e. the
results agree up to key insertion order.  (Equality of the ordered object
representations themselves can fail, because a key absent from a node is
appended in encounter order; see the counterexample.) -/
theorem claim_C5_merge_comm_equiv (t a b : Tree) (p q : List String)
    (hp : p.isPrefixOf q = false) (hq : q.isPrefixOf p = false) :
    Tree.Equiv (recursiveAdd q 0 (recursiveAdd p 0 t a) b)
      (recursiveAdd p 0 (recursiveAdd q 0 t b) a) := by
  have hpne : 0 < p.length := by
    cases p with
    | nil => simp [List.isPrefixOf] at hp
    | cons _ _ => simp
  have hqne : 0 < q.length := by
    cases q with
    | nil => simp [List.isPrefixOf] at hq
    | cons _ _ => simp
  rw [recursiveAdd_eq_addPath p 0 t a hpne, recursiveAdd_eq_addPath q 0 t b hqne]
  rw [recursiveAdd_eq_addPath q 0 _ b hqne, recursiveAdd_eq_addPath p 0 _ a hpne]
  simp only [List.drop_zero]
  exact addPath_comm_equiv p q t a b hp hq

/-- Witness for the amended C5 at a concrete input. -/
theorem claim_C5_witness :
    Tree.Equiv
      (recursiveAdd ["b"] 0
        (recursiveAdd ["a"] 0 (Tree.mk []) (Tree.mk [("x", Tree.mk [])])) (Tree.mk []))
      (recursiveAdd ["a"] 0
        (recursiveAdd ["b"] 0 (Tree.mk []) (Tree.mk [])) (Tree.mk [("x", Tree.mk [])])) :=
  claim_C5_merge_comm_equiv (Tree.mk []) (Tree.mk [("x", Tree.mk [])]) (Tree.mk [])
    ["a"] ["b"] (by decide) (by decide)

/-- Claim C6: if a leaf `a` was merged at `p` and a second leaf `b` is then
merged at the strictly longer path `p ++ r`, no error is raised (the merge
is total), and the node now stored at `p` is the former leaf rewritten
into a subtree carrying `b` below `r`: it has a child at `r`'s first
segment and is no longer the leaf `a`.  The hypothesis that `a` lacks a
key named like `r`'s first segment is the leaf/namespace distinction: a
compatibility leaf does not contain namespace segments as keys. -/
theorem claim_C6_prefix_overwrite (t a b : Tree) (p r : List String)
    (hp : p ≠ []) (hr : r ≠ []) (hleaf : a.get (r.headD "") = none) :
    lookPath (recursiveAdd (p ++ r) 0 (recursiveAdd p 0 t a) b) p
        = some (recursiveAdd r 0 a b)
      ∧ recursiveAdd r 0 a b ≠ a
      ∧ (recursiveAdd r 0 a b).get (r.headD "") ≠ none := by
  have hplen : 0 < p.length := List.length_pos.mpr hp
  have hrlen : 0 < r.length := List.length_pos.mpr hr
  have hprlen : 0 < (p ++ r).length := by
    simp only [List.length_append]
    omega
  rw [recursiveAdd_eq_addPath p 0 t a hplen, recursiveAdd_eq_addPath r 0 a b hrlen,
    recursiveAdd_eq_addPath (p ++ r) 0 _ b hprlen]
  simp only [List.drop_zero]
  obtain ⟨r0, r', rfl⟩ : ∃ r0 r', r = r0 :: r' := by
    cases r with
    | nil => exact absurd rfl hr
    | cons r0 r' => exact ⟨r0, r', rfl⟩
  have hleaf' : a.get r0 = none := by simpa using hleaf
  obtain ⟨V, hV⟩ : ∃ V, addPath (r0 :: r') a b = a.set r0 V := by
    cases r' with
    | nil => exact ⟨b, rfl⟩
    | cons z zs => exact ⟨_, rfl⟩
  refine ⟨?_, ?_, ?_⟩
  · rw [lookPath_addPath_append p (r0 :: r') (addPath p t a) b hr, descend_addPath p t a hp]
  · rw [hV]
    exact Tree.set_ne_of_get_none a r0 V hleaf'
  · rw [hV]
    simp [Tree.get_set_self]

/-- Witness for C6 at a concrete input. -/
theorem claim_C6_witness :
    lookPath
        (recursiveAdd (["x"] ++ ["y"]) 0
          (recursiveAdd ["x"] 0 (Tree.mk []) (Tree.mk [("v", Tree.mk [])])) (Tree.mk [])) ["x"]
        = some (recursiveAdd ["y"] 0 (Tree.mk [("v", Tree.mk [])]) (Tree.mk []))
      ∧ recursiveAdd ["y"] 0 (Tree.mk [("v", Tree.mk [])]) (Tree.mk [])
          ≠ Tree.mk [("v", Tree.mk [])]
      ∧ (recursiveAdd ["y"] 0 (Tree.mk [("v", Tree.mk [])]) (Tree.mk [])).get
          (["y"].headD "") ≠ none :=
  claim_C6_prefix_overwrite (Tree.mk []) (Tree.mk [("v", Tree.mk [])]) (Tree.mk [])
    ["x"] ["y"] (by simp) (by simp) (by simp [Tree.get, Tree.fields, lookupA])

/-- Claim C7: the merge is in place and frame-preserving.  Heap level:
`recursiveAddH` returns the very reference it was passed (the tree object
is mutated, not replaced).  Value level: at every level `j` along the
path, every key other than the path's `j`-th segment maps to an unchanged
value, so sibling entries are not disturbed. -/
theorem claim_C7_in_place_frame :
    (∀ (ident : List String) (i : Nat) (data obj : Nat) (h : Heap),
        (recursiveAddH ident i data obj h).1 = data)
    ∧ (∀ (p : List String) (t obj : Tree) (j : Nat) (k : String),
        j < p.length → k ≠ p.getD j "" →
        getAt (recursiveAdd p 0 t obj) (p.take j) k = getAt t (p.take j) k) := by
  constructor
  · exact recursiveAddH_fst
  · intro p t obj j k hj hk
    rw [recursiveAdd_eq_addPath p 0 t obj (by omega)]
    simp only [List.drop_zero]
    exact addPath_frame j p t obj k hj hk

/-- Witness for C7 at a concrete input. -/
theorem claim_C7_witness :
    (recursiveAddH ["x"] 0 0 1 ⟨[(0, []), (1, [])], 2⟩).1 = 0
    ∧ getAt (recursiveAdd ["x", "y"] 0 (Tree.mk [("z", Tree.mk [])]) (Tree.mk []))
          (["x", "y"].take 1) "z"
        = getAt (Tree.mk [("z", Tree.mk [])]) (["x", "y"].take 1) "z" :=
  ⟨claim_C7_in_place_frame.1 ["x"] 0 0 1 ⟨[(0, []), (1, [])], 2⟩,
    claim_C7_in_place_frame.2 ["x", "y"] (Tree.mk [("z", Tree.mk [])]) (Tree.mk []) 1 "z"
      (by decide) (by decide)⟩

/-! ## Heap lemmas for the shallow-copy (non-aliasing) property -/

theorem Heap.objGet_setField_ne (h : Heap) (a b : Nat) (k : String) (v : Nat) (hab : b ≠ a) :
    (h.setField a k v).objGet b = h.objGet b := by
  unfold Heap.setField
  cases hm : lookupA h.objs a with
  | none => rfl
  | some fs => simp [Heap.objGet, lookupA_setA_ne _ _ _ _ hab]

theorem Heap.objGet_setField_self (h : Heap) (a : Nat) (k : String) (v : Nat)
    (fs : List (String × Nat)) (hm : h.objGet a = some fs) :
    (h.setField a k v).objGet a = some (setA fs k v) := by
  unfold Heap.setField
  unfold Heap.objGet at hm
  rw [hm]
  simp [Heap.objGet, lookupA_setA_self]

theorem Heap.objGet_alloc_ne (h : Heap) (fs : List (String × Nat)) (b : Nat) (hb : b ≠ h.next) :
    (h.alloc fs).2.objGet b = h.objGet b := by
  unfold Heap.alloc Heap.objGet
  simp only [lookupA]
  rw [if_neg (fun hh => hb hh.symm)]

theorem Heap.objGet_alloc_self (h : Heap) (fs : List (String × Nat)) :
    (h.alloc fs).2.objGet h.next = some fs := by
  unfold Heap.alloc Heap.objGet
  simp [lookupA]

theorem Heap.objGet_alloc_fst (h : Heap) (fs : List (String × Nat)) :
    (h.alloc fs).2.objGet (h.alloc fs).1 = some fs :=
  Heap.objGet_alloc_self h fs

theorem addPathH_fst : ∀ (p : List String) (data obj : Nat) (h : Heap),
    (addPathH p data obj h).1 = data := by
  intro p data obj h
  cases p with
  | nil => rfl
  | cons k tail =>
      cases tail with
      | nil => rfl
      | cons k2 rest =>
          cases hm : (h.objGet data).bind (fun fs => lookupA fs k) <;>
            simp [addPathH, hm]

theorem chainP_of_objGet_nil (ps : List String) (a : Nat) (H : Heap)
    (hH : H.objGet a = some []) : chainP ps a H = [a] := by
  cases ps with
  | nil => rfl
  | cons k tail =>
      cases tail with
      | nil => rfl
      | cons k2 rest => simp [chainP, hH, lookupA]

/-- For an in-range index, the index-based heap recursion is the structural
recursion on the remaining segments. -/
theorem recursiveAddH_eq_addPathH (ident : List String) (i : Nat) (data obj : Nat) (h : Heap)
    (hi : i < ident.length) :
    recursiveAddH ident i data obj h = addPathH (ident.drop i) data obj h := by
  rw [recursiveAddH]
  by_cases hlt : i + 1 < ident.length
  · rw [dif_pos hlt]
    have hgd : ident.getD i "" = ident.get ⟨i, hi⟩ := by
      simp [List.getD_eq_getElem?_getD, List.getElem?_eq_getElem hi, List.get_eq_getElem]
    have hdrop : ident.drop i = ident.get ⟨i, hi⟩ :: ident.drop (i + 1) := by
      rw [List.drop_eq_getElem_cons hi]
      simp [List.get_eq_getElem]
    have hdrop2 : ident.drop (i + 1) = ident.get ⟨i + 1, hlt⟩ :: ident.drop (i + 2) := by
      rw [List.drop_eq_getElem_cons hlt]
      simp [List.get_eq_getElem]
    rw [hgd, hdrop, hdrop2]
    cases hm : (h.objGet data).bind (fun fs => lookupA fs (ident.get ⟨i, hi⟩)) with
    | some child =>
        simp only [addPathH, hm]
        rw [recursiveAddH_eq_addPathH ident (i + 1) child obj h hlt, hdrop2]
    | none =>
        simp only [addPathH, hm]
        rw [recursiveAddH_eq_addPathH ident (i + 1) (h.alloc []).1 obj (h.alloc []).2 hlt, hdrop2]
  · rw [dif_neg hlt]
    have hdrop : ident.drop i = [ident.getD i ""] := by
      rw [List.drop_eq_getElem_cons hi]
      have h2 : ident.drop (i + 1) = [] := by
        rw [List.drop_eq_nil_iff]
        omega
      rw [h2]
      simp [List.getD_eq_getElem?_getD, List.getElem?_eq_getElem hi]
    rw [hdrop]
    rfl
termination_by ident.length - i

/-- Frame: the merge touches only the chain of objects it walks and fresh
allocations; every other already-allocated object is unchanged. -/
theorem addPathH_frame : ∀ (p : List String) (data obj : Nat) (h : Heap) (a : Nat),
    a < h.next → a ∉ chainP p data h →
    (addPathH p data obj h).2.objGet a = h.objGet a := by
  intro p
  induction p with
  | nil => intro data obj h a _ _; rfl
  | cons k p' ih =>
      intro data obj h a ha hch
      cases p' with
      | nil =>
          have had : a ≠ data := by
            intro he
            exact hch (by simp [chainP, he])
          simp only [addPathH]
          rw [Heap.objGet_setField_ne _ _ _ _ _ had,
            Heap.objGet_alloc_ne _ _ _ (Nat.ne_of_lt ha)]
      | cons k2 rest =>
          cases hm : (h.objGet data).bind (fun fs => lookupA fs k) with
          | some child =>
              have hcheq : chainP (k :: k2 :: rest) data h = data :: chainP (k2 :: rest) child h := by
                simp [chainP, hm]
              rw [hcheq] at hch
              have had : a ≠ data := fun he => hch (by simp [he])
              have hch2 : a ∉ chainP (k2 :: rest) child h := fun hmem => hch (by simp [hmem])
              simp only [addPathH, hm]
              rw [Heap.objGet_setField_ne _ _ _ _ _ had]
              exact ih child obj h a ha hch2
          | none =>
              have hcheq : chainP (k :: k2 :: rest) data h = [data] := by
                simp [chainP, hm]
              rw [hcheq] at hch
              have had : a ≠ data := fun he => hch (by simp [he])
              simp only [addPathH, hm]
              rw [Heap.objGet_setField_ne _ _ _ _ _ had]
              have hchain1 : chainP (k2 :: rest) (h.alloc []).1 (h.alloc []).2 = [(h.alloc []).1] :=
                chainP_of_objGet_nil _ _ _ (Heap.objGet_alloc_self h [])
              have ha1 : a < (h.alloc []).2.next := by
                simp only [Heap.alloc]
                omega
              have hni : a ∉ chainP (k2 :: rest) (h.alloc []).1 (h.alloc []).2 := by
                rw [hchain1]
                simp only [Heap.alloc, List.mem_singleton]
                omega
              rw [ih (h.alloc []).1 obj (h.alloc []).2 a ha1 hni]
              exact Heap.objGet_alloc_ne h [] a (Nat.ne_of_lt ha)

/-- Main specification of the heap-level merge: under freshness and
non-aliasing of the walked chain, the merge stores at the end of the path
a *freshly allocated* object whose field list is that of `obj` at call
time, and the lookup of that object is stable under changes outside the
chain and the fresh region. -/
theorem addPathH_spec : ∀ (p : List String) (data obj : Nat) (h : Heap),
    p ≠ [] →
    (chainP p data h).Nodup →
    (∀ a ∈ chainP p data h, a < h.next ∧ (h.objGet a).isSome) →
    obj < h.next → obj ∉ chainP p data h → (h.objGet obj).isSome →
    ∃ c, h.next ≤ c ∧
      (addPathH p data obj h).2.objGet c = h.objGet obj ∧
      (∀ g : Heap,
        (∀ b, b ∈ chainP p data h ∨ h.next ≤ b →
          g.objGet b = (addPathH p data obj h).2.objGet b) →
        lookPathH g data p = some c) := by
  intro p
  induction p with
  | nil => intro data obj h hne; exact absurd rfl hne
  | cons k p' ih =>
      intro data obj h _ hnd hch hobj hobjni hobjs
      cases p' with
      | nil =>
          have hcheq : chainP [k] data h = [data] := rfl
          rw [hcheq] at hnd hch hobjni
          have hdata := hch data (by simp)
          obtain ⟨dfs, hdfs⟩ := Option.isSome_iff_exists.mp hdata.2
          obtain ⟨ofs, hofs⟩ := Option.isSome_iff_exists.mp hobjs
          have hnd2 : h.next ≠ data := Nat.ne_of_gt hdata.1
          refine ⟨h.next, Nat.le_refl _, ?_, ?_⟩
          · simp only [addPathH]
            rw [Heap.objGet_setField_ne _ _ _ _ _ hnd2, Heap.objGet_alloc_self, hofs]
            rfl
          · intro g hg
            have h1 : (h.alloc ((h.objGet obj).getD [])).2.objGet data = some dfs := by
              rw [Heap.objGet_alloc_ne _ _ _ (Nat.ne_of_lt hdata.1)]
              exact hdfs
            have h2 : (addPathH [k] data obj h).2.objGet data
                = some (setA dfs k (h.alloc ((h.objGet obj).getD [])).1) := by
              simp only [addPathH]
              exact Heap.objGet_setField_self _ _ _ _ _ h1
            have hgd := hg data (Or.inl (by rw [hcheq]; simp))
            simp only [lookPathH, hgd, h2, Option.some_bind, lookupA_setA_self]
            rfl
      | cons k2 rest =>
          cases hm : (h.objGet data).bind (fun fs => lookupA fs k) with
          | some child =>
              have hcheq : chainP (k :: k2 :: rest) data h
                  = data :: chainP (k2 :: rest) child h := by
                simp [chainP, hm]
              rw [hcheq] at hnd hch hobjni
              have hdata := hch data (by simp)
              obtain ⟨dfs, hdfs⟩ := Option.isSome_iff_exists.mp hdata.2
              obtain ⟨c, hc1, hc2, hc3⟩ :=
                ih child obj h (by simp) (List.Nodup.of_cons hnd)
                  (fun a hmem => hch a (by simp [hmem])) hobj
                  (fun hmem => hobjni (by simp [hmem])) hobjs
              have hcd : c ≠ data := by
                intro he
                subst he
                omega
              have hdnotin : data ∉ chainP (k2 :: rest) child h := (List.nodup_cons.mp hnd).1
              have hframe : (addPathH (k2 :: rest) child obj h).2.objGet data = some dfs := by
                rw [addPathH_frame (k2 :: rest) child obj h data hdata.1 hdnotin]
                exact hdfs
              have hfst : (addPathH (k2 :: rest) child obj h).1 = child := addPathH_fst _ _ _ _
              refine ⟨c, hc1, ?_, ?_⟩
              · simp only [addPathH, hm]
                rw [Heap.objGet_setField_ne _ _ _ _ _ hcd]
                exact hc2
              · intro g hg
                have hset : (addPathH (k :: k2 :: rest) data obj h).2.objGet data
                    = some (setA dfs k child) := by
                  simp only [addPathH, hm]
                  rw [hfst]
                  exact Heap.objGet_setField_self _ _ _ _ _ hframe
                have hgd := hg data (Or.inl (by rw [hcheq]; simp))
                have hrec : lookPathH g child (k2 :: rest) = some c := by
                  apply hc3
                  intro b hb
                  have hbd : b ≠ data := by
                    rcases hb with hmem | hge
                    · intro he
                      subst he
                      exact hdnotin hmem
                    · omega
                  have hgb := hg b (by
                    rcases hb with hmem | hge
                    · exact Or.inl (by rw [hcheq]; simp [hmem])
                    · exact Or.inr hge)
                  rw [hgb]
                  simp only [addPathH, hm]
                  rw [Heap.objGet_setField_ne _ _ _ _ _ hbd]
                simp only [lookPathH, hgd, hset, Option.some_bind, lookupA_setA_self]
                exact hrec
          | none =>
              have hcheq : chainP (k :: k2 :: rest) data h = [data] := by
                simp [chainP, hm]
              rw [hcheq] at hnd hch hobjni
              have hdata := hch data (by simp)
              obtain ⟨dfs, hdfs⟩ := Option.isSome_iff_exists.mp hdata.2
              have hchain1 : chainP (k2 :: rest) (h.alloc []).1 (h.alloc []).2 = [(h.alloc []).1] :=
                chainP_of_objGet_nil _ _ _ (Heap.objGet_alloc_self h [])
              obtain ⟨c, hc1, hc2, hc3⟩ :=
                ih (h.alloc []).1 obj (h.alloc []).2 (by simp) (by rw [hchain1]; simp)
                  (by
                    rw [hchain1]
                    intro a hmem
                    rw [List.mem_singleton] at hmem
                    subst hmem
                    constructor
                    · simp [Heap.alloc]
                    · rw [Heap.objGet_alloc_fst]
                      rfl)
                  (by simp [Heap.alloc]; omega)
                  (by
                    rw [hchain1, List.mem_singleton]
                    simp only [Heap.alloc]
                    omega)
                  (by
                    rw [Heap.objGet_alloc_ne _ _ _ (Nat.ne_of_lt hobj)]
                    exact hobjs)
              have hnext1 : (h.alloc []).2.next = h.next + 1 := rfl
              have hcge : h.next ≤ c := by
                rw [hnext1] at hc1
                omega
              have hcd : c ≠ data := by
                intro he
                subst he
                omega
              have hdnotin1 : data ∉ chainP (k2 :: rest) (h.alloc []).1 (h.alloc []).2 := by
                rw [hchain1, List.mem_singleton]
                simp only [Heap.alloc]
                omega
              have hdata1 : data < (h.alloc []).2.next := by
                rw [hnext1]
                omega
              have hframe : (addPathH (k2 :: rest) (h.alloc []).1 obj (h.alloc []).2).2.objGet data
                  = some dfs := by
                rw [addPathH_frame (k2 :: rest) (h.alloc []).1 obj (h.alloc []).2 data hdata1 hdnotin1]
                rw [Heap.objGet_alloc_ne _ _ _ (Nat.ne_of_lt hdata.1)]
                exact hdfs
              have hfst : (addPathH (k2 :: rest) (h.alloc []).1 obj (h.alloc []).2).1
                  = (h.alloc []).1 := addPathH_fst _ _ _ _
              have hobj1 : (h.alloc []).2.objGet obj = h.objGet obj :=
                Heap.objGet_alloc_ne _ _ _ (Nat.ne_of_lt hobj)
              refine ⟨c, hcge, ?_, ?_⟩
              · simp only [addPathH, hm]
                rw [Heap.objGet_setField_ne _ _ _ _ _ hcd]
                rw [hc2, hobj1]
              · intro g hg
                have hset : (addPathH (k :: k2 :: rest) data obj h).2.objGet data
                    = some (setA dfs k (h.alloc []).1) := by
                  simp only [addPathH, hm]
                  rw [hfst]
                  exact Heap.objGet_setField_self _ _ _ _ _ hframe
                have hgd := hg data (Or.inl (by rw [hcheq]; simp))
                have hrec : lookPathH g (h.alloc []).1 (k2 :: rest) = some c := by
                  apply hc3
                  intro b hb
                  have hbge : h.next ≤ b := by
                    rcases hb with hmem | hge
                    · rw [hchain1, List.mem_singleton] at hmem
                      subst hmem
                      exact Nat.le_refl _
                    · rw [hnext1] at hge
                      omega
                  have hbd : b ≠ data := by
                    have := hdata.1
                    omega
                  have hgb := hg b (Or.inr hbge)
                  rw [hgb]
                  simp only [addPathH, hm]
                  rw [Heap.objGet_setField_ne _ _ _ _ _ hbd]
                simp only [lookPathH, hgd, hset, Option.some_bind, lookupA_setA_self]
                exact hrec

/-- Claim C8: the value stored at the path's final key is a *shallow copy*
of the leaf, not the leaf object itself: the stored object is a fresh
reference distinct from `obj`, it carries `obj`'s field list, and mutating
the leaf object after the merge changes neither the stored copy nor what
the tree's path looks up.  The hypotheses say the walked chain consists of
distinct allocated objects and that the leaf is an allocated object not on
that chain — the shape of any JSON-decoded tree. -/
theorem claim_C8_shallow_copy (ident : List String) (data obj : Nat) (h : Heap)
    (hne : ident ≠ [])
    (hnd : (chainP ident data h).Nodup)
    (hch : ∀ a ∈ chainP ident data h, a < h.next ∧ (h.objGet a).isSome)
    (hobj : obj < h.next) (hobjni : obj ∉ chainP ident data h)
    (hobjs : (h.objGet obj).isSome) :
    ∃ c, c ≠ obj
      ∧ lookPathH (recursiveAddH ident 0 data obj h).2 data ident = some c
      ∧ (recursiveAddH ident 0 data obj h).2.objGet c = h.objGet obj
      ∧ ∀ (k : String) (v : Nat),
          ((recursiveAddH ident 0 data obj h).2.setField obj k v).objGet c
              = (recursiveAddH ident 0 data obj h).2.objGet c
            ∧ lookPathH ((recursiveAddH ident 0 data obj h).2.setField obj k v) data ident
              = some c := by
  rw [recursiveAddH_eq_addPathH ident 0 data obj h (List.length_pos.mpr hne)]
  simp only [List.drop_zero]
  obtain ⟨c, hc1, hc2, hc3⟩ := addPathH_spec ident data obj h hne hnd hch hobj hobjni hobjs
  have hcobj : c ≠ obj := by omega
  refine ⟨c, hcobj, ?_, hc2, ?_⟩
  · exact hc3 _ (fun b _ => rfl)
  · intro k v
    constructor
    · exact Heap.objGet_setField_ne _ _ _ _ _ hcobj
    · apply hc3
      intro b hb
      have hbobj : b ≠ obj := by
        rcases hb with hmem | hge
        · intro he
          subst he
          exact hobjni hmem
        · omega
      exact Heap.objGet_setField_ne _ _ _ _ _ hbobj

/-- Witness for C8 at a concrete input: merging `obj = 1` at path
`x.__compat` into the tree rooted at `0` in a two-object heap. -/
theorem claim_C8_witness :
    ∃ c, c ≠ 1
      ∧ lookPathH (recursiveAddH ["x", "__compat"] 0 0 1 ⟨[(0, []), (1, [("w", 1)])], 2⟩).2 0
          ["x", "__compat"] = some c
      ∧ (recursiveAddH ["x", "__compat"] 0 0 1 ⟨[(0, []), (1, [("w", 1)])], 2⟩).2.objGet c
          = Heap.objGet ⟨[(0, []), (1, [("w", 1)])], 2⟩ 1
      ∧ ∀ (k : String) (v : Nat),
          ((recursiveAddH ["x", "__compat"] 0 0 1 ⟨[(0, []), (1, [("w", 1)])], 2⟩).2.setField 1 k v).objGet c
              = (recursiveAddH ["x", "__compat"] 0 0 1 ⟨[(0, []), (1, [("w", 1)])], 2⟩).2.objGet c
            ∧ lookPathH
                ((recursiveAddH ["x", "__compat"] 0 0 1 ⟨[(0, []), (1, [("w", 1)])], 2⟩).2.setField 1 k v)
                0 ["x", "__compat"] = some c :=
  claim_C8_shallow_copy ["x", "__compat"] 0 1 ⟨[(0, []), (1, [("w", 1)])], 2⟩
    (by simp) (by decide) (by decide) (by decide) (by decide) (by decide)

/-! ## Path-resolver lemmas -/

theorem getFilePath_api_lower (ns : List String) (s : String) (rest : List String)
    (hs : startsWithLowerCase s = true) :
    getFilePath ns ("api" :: s :: rest) = .ok (finishPath ["api", "_globals", s]) := by
  unfold getFilePath
  rw [if_pos (⟨by simp, rfl⟩ :
    2 ≤ ("api" :: s :: rest).length ∧ ("api" :: s :: rest).getD 0 "" = "api")]
  rw [if_pos (by simpa using hs)]
  rfl

theorem getFilePath_api_upper (ns : List String) (s : String) (rest : List String)
    (hs : startsWithLowerCase s = false) :
    getFilePath ns ("api" :: s :: rest) = .ok (finishPath ["api", s]) := by
  unfold getFilePath
  rw [if_pos (⟨by simp, rfl⟩ :
    2 ≤ ("api" :: s :: rest).length ∧ ("api" :: s :: rest).getD 0 "" = "api")]
  rw [if_neg (by simp [hs])]
  rfl

theorem getFilePath_js_lower (ns : List String) (s3 : String) (rest : List String)
    (hs : startsWithLowerCase s3 = true) :
    getFilePath ns ("javascript" :: "builtins" :: s3 :: rest)
      = .ok "javascript/builtins/globals.json" := by
  unfold getFilePath
  rw [if_neg (by simp), if_neg (by simp)]
  rw [if_pos (⟨by simp, rfl, rfl⟩ :
    3 ≤ ("javascript" :: "builtins" :: s3 :: rest).length
      ∧ ("javascript" :: "builtins" :: s3 :: rest).getD 0 "" = "javascript"
      ∧ ("javascript" :: "builtins" :: s3 :: rest).getD 1 "" = "builtins")]
  rw [if_pos (by simpa using hs)]

theorem getFilePath_js_namespace (ns : List String) (s3 s4 : String) (rest : List String)
    (hl : startsWithLowerCase s3 = false)
    (hne : s3 ≠ s4) (hmem : s3 ∈ ns) (hu : startsWithUpperCase s4 = true) :
    getFilePath ns ("javascript" :: "builtins" :: s3 :: s4 :: rest)
      = .ok (finishPath ["javascript", "builtins", s3, s4]) := by
  unfold getFilePath
  rw [if_neg (by simp), if_neg (by simp)]
  rw [if_pos (⟨by simp, rfl, rfl⟩ :
    3 ≤ ("javascript" :: "builtins" :: s3 :: s4 :: rest).length
      ∧ ("javascript" :: "builtins" :: s3 :: s4 :: rest).getD 0 "" = "javascript"
      ∧ ("javascript" :: "builtins" :: s3 :: s4 :: rest).getD 1 "" = "builtins")]
  rw [if_neg (by simp [hl])]
  rw [if_pos (⟨by simp, by simpa using hne, by simpa using hmem, by simpa using hu⟩ :
    4 ≤ ("javascript" :: "builtins" :: s3 :: s4 :: rest).length
      ∧ ("javascript" :: "builtins" :: s3 :: s4 :: rest).getD 2 ""
          ≠ ("javascript" :: "builtins" :: s3 :: s4 :: rest).getD 3 ""
      ∧ ("javascript" :: "builtins" :: s3 :: s4 :: rest).getD 2 "" ∈ ns
      ∧ startsWithUpperCase (("javascript" :: "builtins" :: s3 :: s4 :: rest).getD 3 "") = true)]
  rfl

theorem getFilePath_js_flat3 (ns : List String) (s3 : String) (rest : List String)
    (hl : startsWithLowerCase s3 = false)
    (hnot : ∀ s4 rest2, rest = s4 :: rest2 →
      ¬(s3 ≠ s4 ∧ s3 ∈ ns ∧ startsWithUpperCase s4 = true)) :
    getFilePath ns ("javascript" :: "builtins" :: s3 :: rest)
      = .ok (finishPath ["javascript", "builtins", s3]) := by
  unfold getFilePath
  rw [if_neg (by simp), if_neg (by simp)]
  rw [if_pos (⟨by simp, rfl, rfl⟩ :
    3 ≤ ("javascript" :: "builtins" :: s3 :: rest).length
      ∧ ("javascript" :: "builtins" :: s3 :: rest).getD 0 "" = "javascript"
      ∧ ("javascript" :: "builtins" :: s3 :: rest).getD 1 "" = "builtins")]
  rw [if_neg (by simp [hl])]
  cases rest with
  | nil =>
      rw [if_neg (by simp)]
      rfl
  | cons s4 rest2 =>
      rw [if_neg (by
        intro hcond
        exact hnot s4 rest2 rfl
          ⟨by simpa using hcond.2.1, by simpa using hcond.2.2.1, by simpa using hcond.2.2.2⟩)]
      rfl

/-! ## Claim theorems for the path resolver -/

/-- Claim C3: on an `api` path of length at least two, a lowercase-led
second segment resolves to `api/_globals/<segment2>.json` no matter how
many further segments follow; otherwise the path is truncated to its
first two segments, giving `api/<segment2>.json`, so all members of one
interface resolve to the same file.  The segment hypothesis restricts to
the identifier domain (non-empty ASCII segments), on which the embedded
case test agrees with JS. -/
theorem claim_C3_api (ns : List String) (s2 : String) (rest : List String)
    (_hseg : asciiSeg s2 = true ∧ rest.all asciiSeg = true) :
    (startsWithLowerCase s2 = true →
      getFilePath ns ("api" :: s2 :: rest) = .ok (finishPath ["api", "_globals", s2]))
    ∧ (startsWithLowerCase s2 = false →
      getFilePath ns ("api" :: s2 :: rest) = .ok (finishPath ["api", s2])) :=
  ⟨fun hs => getFilePath_api_lower ns s2 rest hs,
    fun hs => getFilePath_api_upper ns s2 rest hs⟩

/-- Witness for C3: `api.caches` resolves into `_globals`, and
`api.AudioContext.decodeAudioData` truncates to the interface file. -/
theorem claim_C3_witness :
    getFilePath [] ["api", "caches"] = .ok "api/_globals/caches.json"
    ∧ getFilePath [] ["api", "AudioContext", "decodeAudioData"] = .ok "api/AudioContext.json" :=
  ⟨((claim_C3_api [] "caches" [] ⟨by decide, by decide⟩).1 (by decide)).trans rfl,
    ((claim_C3_api [] "AudioContext" ["decodeAudioData"] ⟨by decide, by decide⟩).2
      (by decide)).trans rfl⟩

/-- Claim C2: on a `javascript.builtins` path of length at least three, a
lowercase-led third segment short-circuits to the fixed file
`javascript/builtins/globals.json` regardless of the remaining segments;
otherwise, when a fourth segment exists, the third differs from the
fourth, the third is in the recognized-namespace list and the fourth
starts uppercase, the path truncates to its first four segments plus
`.json`; in every other case it truncates to its first three segments
plus `.json`.  The segment hypothesis restricts to the identifier domain
(non-empty ASCII segments), on which the embedded case tests agree with
JS. -/
theorem claim_C2_js_builtins (ns : List String) (s3 : String) (rest : List String)
    (_hseg : asciiSeg s3 = true ∧ rest.all asciiSeg = true) :
    (startsWithLowerCase s3 = true →
      getFilePath ns ("javascript" :: "builtins" :: s3 :: rest)
        = .ok "javascript/builtins/globals.json")
    ∧ (∀ s4 rest2, rest = s4 :: rest2 → startsWithLowerCase s3 = false →
        s3 ≠ s4 → s3 ∈ ns → startsWithUpperCase s4 = true →
        getFilePath ns ("javascript" :: "builtins" :: s3 :: rest)
          = .ok (finishPath ["javascript", "builtins", s3, s4]))
    ∧ (startsWithLowerCase s3 = false →
        (∀ s4 rest2, rest = s4 :: rest2 →
          ¬(s3 ≠ s4 ∧ s3 ∈ ns ∧ startsWithUpperCase s4 = true)) →
        getFilePath ns ("javascript" :: "builtins" :: s3 :: rest)
          = .ok (finishPath ["javascript", "builtins", s3])) := by
  refine ⟨fun hs => getFilePath_js_lower ns s3 rest hs, ?_, ?_⟩
  · intro s4 rest2 hrest hl hne hmem hu
    subst hrest
    exact getFilePath_js_namespace ns s3 s4 rest2 hl hne hmem hu
  · intro hl hnot
    exact getFilePath_js_flat3 ns s3 rest hl hnot

/-- Witness for C2: `javascript.builtins.Intl.DateTimeFormat` with `Intl`
in the namespace list truncates to four segments, and a lowercase-led
builtin goes to the shared globals file. -/
theorem claim_C2_witness :
    getFilePath ["Intl"] ["javascript", "builtins", "Intl", "DateTimeFormat"]
      = .ok "javascript/builtins/Intl/DateTimeFormat.json"
    ∧ getFilePath ["Intl"] ["javascript", "builtins", "isNaN", "x"]
        = .ok "javascript/builtins/globals.json" :=
  ⟨((claim_C2_js_builtins ["Intl"] "Intl" ["DateTimeFormat"] ⟨by decide, by decide⟩).2.1
      "DateTimeFormat" [] rfl (by decide) (by decide) (by decide) (by decide)).trans rfl,
    (claim_C2_js_builtins ["Intl"] "isNaN" ["x"] ⟨by decide, by decide⟩).1 (by decide)⟩

/-- Claim C4: when an identifier path matches none of the area rules — the
`api`, `css`-family, `javascript.builtins` and `webassembly` guards all
fail (unknown first segment or a path too short for its area) — the
resolver throws rather than returning a path, and the error message
contains the full dotted identifier. -/
theorem claim_C4_unroutable (ns ident : List String)
    (h1 : ¬(2 ≤ ident.length ∧ ident.getD 0 "" = "api"))
    (h2 : ¬(3 ≤ ident.length ∧ ident.getD 0 "" ∈ ["css", "html", "svg", "mathml"]))
    (h3 : ¬(3 ≤ ident.length ∧ ident.getD 0 "" = "javascript" ∧ ident.getD 1 "" = "builtins"))
    (h4 : ¬(2 ≤ ident.length ∧ ident.getD 0 "" = "webassembly")) :
    ∃ msg, getFilePath ns ident = .error msg
      ∧ ∃ pre post, msg = pre ++ String.intercalate "." ident ++ post := by
  refine ⟨"Cannot determine file path from BCD path: " ++ String.intercalate "." ident, ?_,
    "Cannot determine file path from BCD path: ", "", ?_⟩
  · unfold getFilePath
    rw [if_neg h1, if_neg h2, if_neg h3, if_neg h4]
  · simp

/-- Witness for C4 at the unroutable inputs named by the spec. -/
theorem claim_C4_witness :
    (∃ msg, getFilePath [] ["unknownarea", "x"] = .error msg
      ∧ ∃ pre post, msg = pre ++ String.intercalate "." ["unknownarea", "x"] ++ post)
    ∧ (∃ msg, getFilePath [] ["api"] = .error msg
      ∧ ∃ pre post, msg = pre ++ String.intercalate "." ["api"] ++ post)
    ∧ (∃ msg, getFilePath [] ["css", "x"] = .error msg
      ∧ ∃ pre post, msg = pre ++ String.intercalate "." ["css", "x"] ++ post) :=
  ⟨claim_C4_unroutable [] ["unknownarea", "x"] (by decide) (by decide) (by decide) (by decide),
    claim_C4_unroutable [] ["api"] (by decide) (by decide) (by decide) (by decide),
    claim_C4_unroutable [] ["css", "x"] (by decide) (by decide) (by decide) (by decide)⟩

/-- Claim C10: for a segment whose first character is an ASCII non-letter
(not in `A`–`Z`, nor in `a`–`z`, e.g. a digit or underscore), both case
tests return `true`, because such a character equals both its own
lowercase and uppercase folds; since the lowercase branches are checked
first, an `api` path whose second segment starts with a non-letter
resolves into the `api/_globals` directory, and a `javascript.builtins`
path whose third segment starts with a non-letter resolves to
`javascript/builtins/globals.json`. -/
theorem claim_C10_nonletter :
    (∀ (c : Char) (cs : List Char), c.toNat < 128 →
        ¬(65 ≤ c.toNat ∧ c.toNat ≤ 90) → ¬(97 ≤ c.toNat ∧ c.toNat ≤ 122) →
        startsWithLowerCase ⟨c :: cs⟩ = true ∧ startsWithUpperCase ⟨c :: cs⟩ = true)
    ∧ (∀ (ns : List String) (c : Char) (cs : List Char) (rest : List String),
        c.toNat < 128 →
        ¬(65 ≤ c.toNat ∧ c.toNat ≤ 90) → ¬(97 ≤ c.toNat ∧ c.toNat ≤ 122) →
        getFilePath ns ("api" :: String.mk (c :: cs) :: rest)
          = .ok (finishPath ["api", "_globals", String.mk (c :: cs)]))
    ∧ (∀ (ns : List String) (c : Char) (cs : List Char) (rest : List String),
        c.toNat < 128 →
        ¬(65 ≤ c.toNat ∧ c.toNat ≤ 90) → ¬(97 ≤ c.toNat ∧ c.toNat ≤ 122) →
        getFilePath ns ("javascript" :: "builtins" :: String.mk (c :: cs) :: rest)
          = .ok "javascript/builtins/globals.json") := by
  have hlow : ∀ (c : Char) (cs : List Char), ¬(65 ≤ c.toNat ∧ c.toNat ≤ 90) →
      startsWithLowerCase ⟨c :: cs⟩ = true := by
    intro c cs h
    show (c == c.toLower) = true
    have : c.toLower = c := by
      unfold Char.toLower
      rw [if_neg h]
    rw [this]
    exact beq_self_eq_true c
  have hupp : ∀ (c : Char) (cs : List Char), ¬(97 ≤ c.toNat ∧ c.toNat ≤ 122) →
      startsWithUpperCase ⟨c :: cs⟩ = true := by
    intro c cs h
    show (c == c.toUpper) = true
    have : c.toUpper = c := by
      unfold Char.toUpper
      rw [if_neg h]
    rw [this]
    exact beq_self_eq_true c
  refine ⟨fun c cs _ h1 h2 => ⟨hlow c cs h1, hupp c cs h2⟩, ?_, ?_⟩
  · intro ns c cs rest _ h1 _
    exact getFilePath_api_lower ns (String.mk (c :: cs)) rest (hlow c cs h1)
  · intro ns c cs rest _ h1 _
    exact getFilePath_js_lower ns (String.mk (c :: cs)) rest (hlow c cs h1)

/-- Witness for C10 at a digit-led and an underscore-led segment. -/
theorem claim_C10_witness :
    (startsWithLowerCase ⟨['5']⟩ = true ∧ startsWithUpperCase ⟨['5']⟩ = true)
    ∧ getFilePath [] ("api" :: String.mk ['_', 'f'] :: ["m"]) = .ok "api/_globals/_f.json"
    ∧ getFilePath [] ("javascript" :: "builtins" :: String.mk ['5'] :: [])
        = .ok "javascript/builtins/globals.json" :=
  ⟨claim_C10_nonletter.1 '5' [] (by decide) (by decide) (by decide),
    (claim_C10_nonletter.2.1 [] '_' ['f'] ["m"] (by decide) (by decide) (by decide)).trans rfl,
    claim_C10_nonletter.2.2 [] '5' [] [] (by decide) (by decide) (by decide)⟩

/-! ## Traversal lemmas -/

theorem writeTriggered_eq_any (l : List (String × StatementsVal)) :
    writeTriggered l = l.any (fun e => envSupported e.2) := by
  induction l with
  | nil => rfl
  | cons e rest ih =>
      obtain ⟨k, sts⟩ := e
      by_cases h : envSupported sts = true <;>
        simp [writeTriggered, h, ih]

mutual

theorem traverseFeatures_visits (t : FTree) (identifier : List String) :
    (traverseFeatures t identifier).1 = (keyPaths t).map (fun p => identifier ++ p) := by
  cases t with
  | mk c cs =>
      simp only [traverseFeatures, keyPaths]
      exact traverseChildren_visits cs identifier

theorem traverseChildren_visits (cs : List (String × FTree)) (identifier : List String) :
    (traverseChildren cs identifier).1
      = (keyPathsChildren cs).map (fun p => identifier ++ p) := by
  match cs with
  | [] => rfl
  | (i, c) :: rest =>
      by_cases hic : i = "__compat"
      · simp only [traverseChildren, keyPathsChildren, if_pos hic]
        exact traverseChildren_visits rest identifier
      · simp only [traverseChildren, keyPathsChildren, if_neg hic]
        rw [traverseFeatures_visits c (identifier ++ [i]), traverseChildren_visits rest identifier]
        simp [List.map_map, Function.comp, List.append_assoc]

end

/-! ## Claim theorems for the traversal -/

/-- Claim C1: an environment counts as supporting iff some statement in
its (normalized) sequence has a truthy `version_added` and a falsy
`version_removed`; a node triggers the file write iff at least one
environment counts.  Includes the spec's four example verdicts and the
loop's write equation inside the traversal. -/
theorem claim_C1_support_predicate :
    (∀ support : List (String × StatementsVal),
        writeTriggered support = true ↔ ∃ e ∈ support, envSupported e.2 = true)
    ∧ (∀ s : SupportStatement,
        envSupported (.single s)
          = (truthyO s.version_added && !truthyO s.version_removed))
    ∧ envSupported (.single ⟨some .null, none⟩) = false
    ∧ envSupported (.single ⟨some (.str "15"), some (.str "20")⟩) = false
    ∧ envSupported (.single ⟨some (.bool true), none⟩) = true
    ∧ (∀ (l : List SupportStatement) (s : SupportStatement), s ∈ l →
        truthyO s.version_added = true → truthyO s.version_removed = false →
        envSupported (.arr l) = true)
    ∧ (∀ (i : String) (c : FTree) (rest : List (String × FTree)) (identifier : List String),
        i ≠ "__compat" →
        (traverseChildren ((i, c) :: rest) identifier).2
          = (if (match c.supportOf with
                | some support => writeTriggered support
                | none => false)
             then (identifier ++ [i]) :: ((traverseFeatures c (identifier ++ [i])).2
               ++ (traverseChildren rest identifier).2)
             else (traverseFeatures c (identifier ++ [i])).2
               ++ (traverseChildren rest identifier).2)) := by
  refine ⟨?_, ?_, rfl, rfl, rfl, ?_, ?_⟩
  · intro support
    rw [writeTriggered_eq_any]
    exact List.any_eq_true
  · intro s
    simp [envSupported, StatementsVal.toList]
  · intro l s hmem ha hr
    simp only [envSupported, StatementsVal.toList]
    rw [List.any_eq_true]
    exact ⟨s, hmem, by rw [ha, hr]; rfl⟩
  · intro i c rest identifier hic
    simp only [traverseChildren, if_neg hic]

/-- Witness for C1 at concrete support data. -/
theorem claim_C1_witness :
    (writeTriggered [("chrome", StatementsVal.single ⟨some (JVal.bool true), none⟩)] = true
      ↔ ∃ e ∈ [("chrome", StatementsVal.single ⟨some (JVal.bool true), none⟩)],
          envSupported e.2 = true)
    ∧ envSupported (.arr [⟨some (JVal.str "15"), none⟩]) = true :=
  ⟨claim_C1_support_predicate.1 [("chrome", StatementsVal.single ⟨some (JVal.bool true), none⟩)],
    claim_C1_support_predicate.2.2.2.2.2.1 [⟨some (JVal.str "15"), none⟩]
      ⟨some (JVal.str "15"), none⟩ (by simp) (by decide) (by decide)⟩

/-- Claim C9: the traversal visits exactly the descendant key paths of the
input tree other than entries keyed `__compat`, in depth-first preorder
(each visited identifier is the prefix extended by the key path), and it
does so independently of any compatibility data — in particular it
recurses into a child whether or not that child triggered a file write. -/
theorem claim_C9_traversal_visits (t : FTree) (identifier : List String) :
    (traverseFeatures t identifier).1 = (keyPaths t).map (fun p => identifier ++ p) :=
  traverseFeatures_visits t identifier

end AddNewBcd
